import Mathlib

/-!
Shallow embedding of `src/DisorderFromAlphaFold.py` and verification of its
specification's claims.

Modelling conventions:
* `numpy` float arrays of pLDDT scores are modelled as `List ℚ` (exact
  rational arithmetic in place of IEEE floats; all properties under study
  are order and counting facts on small literals, not rounding facts).
* `np.argwhere(...)[:, 0]`, slicing, `np.append`, `np.insert` and
  `np.where` are modelled by the corresponding total `List` operations.
* The source's `while` loop computing stretch lengths (lines 63-69 of
  `DisorderFromAlphaFold.py`) is modelled by the structural recursion
  `consecLenAux` over the suffix of the extended index array; on every
  input reachable from the pipeline the two agree step by step, because the
  duplicated sentinel index appended at line 51 stops the loop strictly
  before the end of the array.
* Python `assert` failures and the source's `(None, None)` result are
  modelled with `Except` and `Option` respectively.
-/

namespace DisorderFromAlphaFold

/-- Threshold predicate of lines 41-44: `pLDDTs >= T` when `aboveThreshold`
is set, otherwise `pLDDTs <= T`. -/
def thresholdSat (aboveThreshold : Bool) (T x : ℚ) : Bool :=
  if aboveThreshold then decide (T ≤ x) else decide (x ≤ T)

/-- `np.argwhere(pLDDTs <= pLDDTThreshold)[:, 0]` (lines 41-44): the
ascending list of indices whose score satisfies the threshold predicate. -/
def pLDDTIndices (pLDDTs : List ℚ) (T : ℚ) (aboveThreshold : Bool) : List ℕ :=
  (List.range pLDDTs.length).filter (fun i => thresholdSat aboveThreshold T (pLDDTs.getD i 0))

/-- `np.append(pLDDTIndices, pLDDTIndices[-1])` (line 51): duplicate the
final index value as a sentinel. -/
def extendedIndices (idxs : List ℕ) : List ℕ :=
  idxs ++ [idxs.getD (idxs.length - 1) 0]

/-- Line 56: `np.where(ext[1:] - ext[:-1] > 1)[0] + 1`, the positions (into
the extended index array) at which a non-initial consecutive stretch
begins. -/
def consecutiveStartsTail (ext : List ℕ) : List ℕ :=
  ((List.range (ext.length - 1)).filter
      (fun j => decide (ext.getD j 0 + 1 < ext.getD (j + 1) 0))).map (· + 1)

/-- Line 59: `np.insert(..., 0, 0)` prepends the start of the first
stretch. -/
def consecutiveStarts (ext : List ℕ) : List ℕ :=
  0 :: consecutiveStartsTail ext

/-- The source's inner `while` loop (lines 63-69), recursing over the suffix
of the extended index array: `x` is the value at the current position and
the list argument is the remainder of the array after it. -/
def consecLenAux : ℕ → List ℕ → ℕ
  | _, [] => 1
  | x, y :: rest => if y = x + 1 then consecLenAux y rest + 1 else 1

/-- Length of the consecutive stretch beginning at position `idx` of the
extended index array `ext` (the body of the `for` loop at lines 63-69). -/
def consecLen (ext : List ℕ) (idx : ℕ) : ℕ :=
  match ext.drop idx with
  | [] => 1
  | x :: rest => consecLenAux x rest

/-- `getConsecutivepLDDTFromThreshold` (lines 34-70).  `none` models the
source's `(None, None)` early return; otherwise the result is the pair of
the stretch start positions and the stretch lengths. -/
def getConsecutivepLDDTFromThreshold (pLDDTs : List ℚ) (T : ℚ)
    (aboveThreshold : Bool) : Option (List ℕ × List ℕ) :=
  let idxs := pLDDTIndices pLDDTs T aboveThreshold
  if idxs.isEmpty then none
  else
    let ext := extendedIndices idxs
    let starts := consecutiveStarts ext
    some (starts, starts.map (consecLen ext))

/-- `getConsecutiveDisorderedFrompLDDTs` (lines 72-76). -/
def getConsecutiveDisorderedFrompLDDTs (pLDDTs : List ℚ) (T : ℚ) :
    Option (List ℕ × List ℕ) :=
  getConsecutivepLDDTFromThreshold pLDDTs T false

/-- `getConsecutiveOrderedFrompLDDTs` (lines 78-82). -/
def getConsecutiveOrderedFrompLDDTs (pLDDTs : List ℚ) (T : ℚ) :
    Option (List ℕ × List ℕ) :=
  getConsecutivepLDDTFromThreshold pLDDTs T true

/-- `getDisorderedFractionFrompLDDTs` (lines 84-97): the disordered fraction
together with the filtered stretch lengths (`none` models Python `None`). -/
def getDisorderedFractionFrompLDDTs (pLDDTs : List ℚ) (T : ℚ)
    (numberConsectuivelyDisorderThreshold : ℕ) : ℚ × Option (List ℕ) :=
  match getConsecutiveDisorderedFrompLDDTs pLDDTs T with
  | none => (0, none)
  | some (_, lens) =>
    let filtered := lens.filter (fun L => decide (numberConsectuivelyDisorderThreshold ≤ L))
    (((filtered.sum : ℕ) : ℚ) / (pLDDTs.length : ℚ), some filtered)

/-- The failure modes of `getpLDDTsSubSequenceFromAlphaFoldPDBModel`
(the four `assert` statements at lines 23-30). -/
inductive SubSeqError where
  | mixedBounds
  | startAfterEnd
  | rangeExceedsLength
  | endBeyondSequence
deriving DecidableEq

/-- `getpLDDTsSubSequenceFromAlphaFoldPDBModel` (lines 13-32).  The
BioPython model object is represented by its list of per-residue pLDDT
values (one score per residue, so the model's residue count equals
`pLDDTs.length`); Python `assert` failures are modelled as `Except.error`.
Residue numbers are 1-based, as the source's docstring states. -/
def getpLDDTsSubSequenceFromAlphaFoldPDBModel (pLDDTs : List ℚ)
    (startRes endRes : Option ℕ) : Except SubSeqError (List ℚ) :=
  match startRes, endRes with
  | none, none => Except.ok pLDDTs
  | some s, some e =>
    if s ≤ e then
      if e - s ≤ pLDDTs.length then
        if e ≤ pLDDTs.length then
          Except.ok ((pLDDTs.drop (s - 1)).take (e - (s - 1)))
        else Except.error SubSeqError.endBeyondSequence
      else Except.error SubSeqError.rangeExceedsLength
    else Except.error SubSeqError.startAfterEnd
  | _, _ => Except.error SubSeqError.mixedBounds

/-- Number of indices of the score list satisfying the threshold predicate. -/
def countSatisfying (pLDDTs : List ℚ) (T : ℚ) (aboveThreshold : Bool) : ℕ :=
  (List.range pLDDTs.length).countP (fun i => thresholdSat aboveThreshold T (pLDDTs.getD i 0))

/-- The stretch lengths of a pipeline result (empty when no stretch was
found at all). -/
def runLengths : Option (List ℕ × List ℕ) → List ℕ
  | none => []
  | some (_, lens) => lens

/-- Total residue count of the stretches meeting the min-length cutoff. -/
def qualifyingRunSum (pLDDTs : List ℚ) (T : ℚ) (aboveThreshold : Bool)
    (minLen : ℕ) : ℕ :=
  ((runLengths (getConsecutivepLDDTFromThreshold pLDDTs T aboveThreshold)).filter
    (fun L => decide (minLen ≤ L))).sum

/-- Gap sequence of an increasing position list, closing the final gap at
`m`; used to characterise the stretch lengths. -/
def gaps (m : ℕ) : List ℕ → List ℕ
  | [] => []
  | [s] => [m - s]
  | s :: s2 :: rest => (s2 - s) :: gaps m (s2 :: rest)

/-! ### Basic facts about the embedded operations -/

theorem consecLenAux_pos (x : ℕ) (t : List ℕ) : 1 ≤ consecLenAux x t := by
  induction t generalizing x with
  | nil => simp [consecLenAux]
  | cons y rest ih => simp only [consecLenAux]; split <;> omega

theorem consecLen_pos (ext : List ℕ) (idx : ℕ) : 1 ≤ consecLen ext idx := by
  unfold consecLen
  split
  · exact le_refl 1
  · exact consecLenAux_pos _ _

theorem consecLen_of_drop_cons {ext : List ℕ} {idx x : ℕ} {rest : List ℕ}
    (h : ext.drop idx = x :: rest) : consecLen ext idx = consecLenAux x rest := by
  unfold consecLen
  rw [h]

theorem consecLen_of_drop_nil {ext : List ℕ} {idx : ℕ}
    (h : ext.drop idx = []) : consecLen ext idx = 1 := by
  unfold consecLen
  rw [h]

/-- The structural recursion `consecLen` satisfies the same step equation as
the source's `while` loop: it looks at the next position of the array and
continues exactly when the index there is the successor of the current
one. -/
theorem consecLen_succ (ext : List ℕ) (idx : ℕ) :
    consecLen ext idx =
      if ext.getD (idx + 1) 0 = ext.getD idx 0 + 1 then consecLen ext (idx + 1) + 1
      else 1 := by
  rcases Nat.lt_or_ge idx ext.length with h | h
  · have hd : ext.drop idx = ext[idx] :: ext.drop (idx + 1) := List.drop_eq_getElem_cons h
    rcases Nat.lt_or_ge (idx + 1) ext.length with h2 | h2
    · have hd2 : ext.drop (idx + 1) = ext[idx + 1] :: ext.drop (idx + 2) :=
        List.drop_eq_getElem_cons h2
      have hd' : ext.drop idx = ext[idx] :: ext[idx + 1] :: ext.drop (idx + 2) := by
        rw [hd, hd2]
      rw [consecLen_of_drop_cons hd', consecLen_of_drop_cons hd2,
        List.getD_eq_getElem ext 0 h2, List.getD_eq_getElem ext 0 h]
      simp only [consecLenAux]
    · have hnil : ext.drop (idx + 1) = [] := by
        rw [List.drop_eq_nil_iff]
        omega
      have hd' : ext.drop idx = [ext[idx]] := by rw [hd, hnil]
      rw [consecLen_of_drop_cons hd']
      have : ext.getD (idx + 1) 0 = 0 := List.getD_eq_default ext 0 h2
      rw [this, if_neg (by omega)]
      simp [consecLenAux]
  · have hnil : ext.drop idx = [] := by
      rw [List.drop_eq_nil_iff]
      omega
    rw [consecLen_of_drop_nil hnil]
    have h1 : ext.getD idx 0 = 0 := List.getD_eq_default ext 0 h
    have h2 : ext.getD (idx + 1) 0 = 0 := List.getD_eq_default ext 0 (by omega)
    rw [h1, h2, if_neg (by omega)]

theorem getD_lt_of_pairwise {l : List ℕ} (hs : l.Pairwise (· < ·)) {i j : ℕ}
    (hij : i < j) (hj : j < l.length) : l.getD i 0 < l.getD j 0 := by
  have hi : i < l.length := lt_trans hij hj
  rw [List.getD_eq_getElem l 0 hi, List.getD_eq_getElem l 0 hj]
  exact List.pairwise_iff_getElem.mp hs i j hi hj hij

theorem getD_le_of_pairwise {l : List ℕ} (hs : l.Pairwise (· < ·)) {i j : ℕ}
    (hij : i ≤ j) (hj : j < l.length) : l.getD i 0 ≤ l.getD j 0 := by
  rcases Nat.lt_or_ge i j with h | h
  · exact le_of_lt (getD_lt_of_pairwise hs h hj)
  · have : i = j := by omega
    rw [this]

theorem extendedIndices_length (l : List ℕ) :
    (extendedIndices l).length = l.length + 1 := by
  simp [extendedIndices]

theorem extendedIndices_getD_lt (l : List ℕ) {j : ℕ} (h : j < l.length) :
    (extendedIndices l).getD j 0 = l.getD j 0 :=
  List.getD_append _ _ _ _ h

theorem extendedIndices_getD_last (l : List ℕ) :
    (extendedIndices l).getD l.length 0 = l.getD (l.length - 1) 0 := by
  unfold extendedIndices
  rw [List.getD_append_right _ _ _ _ (le_refl _)]
  simp

/-! ### The stretch lengths are the gaps between successive stretch starts -/

/-- If the indices climb by exactly one from position `s` up to position
`s + d`, and the climb stops at position `s + d + 1`, then the length
computed by the source's `while` loop is `d + 1`. -/
theorem consecLen_of_chain (ext : List ℕ) :
    ∀ d s : ℕ,
      (∀ t, s < t → t < s + d + 1 → ext.getD t 0 = ext.getD (t - 1) 0 + 1) →
      ¬ext.getD (s + d + 1) 0 = ext.getD (s + d) 0 + 1 →
      consecLen ext s = d + 1 := by
  intro d
  induction d with
  | zero =>
    intro s _ h2
    rw [consecLen_succ]
    have hno : ¬ext.getD (s + 1) 0 = ext.getD s 0 + 1 := by simpa using h2
    rw [if_neg hno]
  | succ d ih =>
    intro s h1 h2
    have hP : ext.getD (s + 1) 0 = ext.getD s 0 + 1 := by
      have := h1 (s + 1) (by omega) (by omega)
      simpa using this
    rw [consecLen_succ, if_pos hP]
    have harg1 : ∀ t, s + 1 < t → t < s + 1 + d + 1 → ext.getD t 0 = ext.getD (t - 1) 0 + 1 :=
      fun t ht1 ht2 => h1 t (by omega) (by omega)
    have harg2 : ¬ext.getD (s + 1 + d + 1) 0 = ext.getD (s + 1 + d) 0 + 1 := by
      have e1 : s + 1 + d + 1 = s + (d + 1) + 1 := by omega
      have e2 : s + 1 + d = s + (d + 1) := by omega
      rw [e1, e2]
      exact h2
    have := ih (s + 1) harg1 harg2
    omega

/-- Workhorse: over a list whose tail elements are exactly the non-climbing
positions in `(s, m)`, the stretch lengths computed by the `while` loop are
the gaps between successive start positions (closed at `m`). -/
theorem map_consecLen_eq_gaps (ext : List ℕ) (m : ℕ)
    (hPm : ¬ext.getD m 0 = ext.getD (m - 1) 0 + 1) :
    ∀ (xs : List ℕ) (s : ℕ),
      (s :: xs).Pairwise (· < ·) →
      (∀ x ∈ s :: xs, x < m) →
      (∀ t, s < t → t < m → (t ∈ xs ↔ ¬ext.getD t 0 = ext.getD (t - 1) 0 + 1)) →
      (s :: xs).map (consecLen ext) = gaps m (s :: xs) := by
  intro xs
  induction xs with
  | nil =>
    intro s _ hb hchar
    have hsm : s < m := hb s (by simp)
    have hlen : consecLen ext s = (m - s - 1) + 1 := by
      apply consecLen_of_chain
      · intro t ht1 ht2
        by_contra hc
        have : t ∈ ([] : List ℕ) := (hchar t ht1 (by omega)).mpr hc
        simp at this
      · have e1 : s + (m - s - 1) + 1 = m := by omega
        have e2 : s + (m - s - 1) = m - 1 := by omega
        rw [e1, e2]
        exact hPm
    have hval : consecLen ext s = m - s := by omega
    simp [gaps, hval]
  | cons s2 rest ih =>
    intro s hp hb hchar
    have hss2 : s < s2 := (List.pairwise_cons.mp hp).1 s2 (by simp)
    have hp2 : (s2 :: rest).Pairwise (· < ·) := (List.pairwise_cons.mp hp).2
    have hs2m : s2 < m := hb s2 (by simp)
    have hs2rest : ∀ x ∈ rest, s2 < x := (List.pairwise_cons.mp hp2).1
    have hnotP2 : ¬ext.getD s2 0 = ext.getD (s2 - 1) 0 + 1 :=
      (hchar s2 hss2 hs2m).mp (by simp)
    have hhead : consecLen ext s = s2 - s := by
      have hcl : consecLen ext s = (s2 - s - 1) + 1 := by
        apply consecLen_of_chain
        · intro t ht1 ht2
          by_contra hc
          have hmem : t ∈ s2 :: rest := (hchar t ht1 (by omega)).mpr hc
          rcases List.mem_cons.mp hmem with h | h
          · omega
          · have := hs2rest t h
            omega
        · have e1 : s + (s2 - s - 1) + 1 = s2 := by omega
          have e2 : s + (s2 - s - 1) = s2 - 1 := by omega
          rw [e1, e2]
          exact hnotP2
      omega
    have hchar2 : ∀ t, s2 < t → t < m →
        (t ∈ rest ↔ ¬ext.getD t 0 = ext.getD (t - 1) 0 + 1) := by
      intro t ht1 ht2
      have := hchar t (by omega) ht2
      constructor
      · intro hmem
        exact this.mp (List.mem_cons.mpr (Or.inr hmem))
      · intro hnp
        rcases List.mem_cons.mp (this.mpr hnp) with h | h
        · omega
        · exact h
    have hb2 : ∀ x ∈ s2 :: rest, x < m := fun x hx => hb x (List.mem_cons.mpr (Or.inr hx))
    have htail := ih s2 hp2 hb2 hchar2
    show consecLen ext s :: (s2 :: rest).map (consecLen ext) = gaps m (s :: s2 :: rest)
    rw [hhead, htail]
    rfl

/-- The gaps of an increasing position list bounded by `m` sum to `m` minus
the first position. -/
theorem gaps_sum (m : ℕ) :
    ∀ (xs : List ℕ) (s : ℕ),
      (s :: xs).Pairwise (· < ·) →
      (∀ x ∈ s :: xs, x < m) →
      (gaps m (s :: xs)).sum = m - s := by
  intro xs
  induction xs with
  | nil =>
    intro s _ _
    simp [gaps]
  | cons s2 rest ih =>
    intro s hp hb
    have hss2 : s < s2 := (List.pairwise_cons.mp hp).1 s2 (by simp)
    have hs2m : s2 < m := hb s2 (by simp)
    have hp2 : (s2 :: rest).Pairwise (· < ·) := (List.pairwise_cons.mp hp).2
    have hb2 : ∀ x ∈ s2 :: rest, x < m := fun x hx => hb x (List.mem_cons.mpr (Or.inr hx))
    have htail := ih s2 hp2 hb2
    show ((s2 - s) :: gaps m (s2 :: rest)).sum = m - s
    rw [List.sum_cons, htail]
    omega

/-- Positionally: each position plus its gap is the next position (with the
bound `m` after the last). -/
theorem gaps_getD (m : ℕ) :
    ∀ (xs : List ℕ) (s i : ℕ),
      (s :: xs).Pairwise (· < ·) →
      (∀ x ∈ s :: xs, x < m) →
      i < (s :: xs).length →
      (s :: xs).getD i 0 + (gaps m (s :: xs)).getD i 0 = (s :: xs).getD (i + 1) m := by
  intro xs
  induction xs with
  | nil =>
    intro s i _ hb hi
    have hi0 : i = 0 := by simpa using hi
    have hsm : s < m := hb s (by simp)
    subst hi0
    show s + (gaps m [s]).getD 0 0 = ([s] : List ℕ).getD 1 m
    have h1 : (gaps m [s]).getD 0 0 = m - s := rfl
    have h2 : ([s] : List ℕ).getD 1 m = m := rfl
    rw [h1, h2]
    omega
  | cons s2 rest ih =>
    intro s i hp hb hi
    have hss2 : s < s2 := (List.pairwise_cons.mp hp).1 s2 (by simp)
    have hp2 : (s2 :: rest).Pairwise (· < ·) := (List.pairwise_cons.mp hp).2
    have hb2 : ∀ x ∈ s2 :: rest, x < m := fun x hx => hb x (List.mem_cons.mpr (Or.inr hx))
    match i with
    | 0 =>
      show s + ((s2 - s) :: gaps m (s2 :: rest)).getD 0 0 = (s :: s2 :: rest).getD 1 m
      have h1 : ((s2 - s) :: gaps m (s2 :: rest)).getD 0 0 = s2 - s := rfl
      have h2 : (s :: s2 :: rest).getD 1 m = s2 := rfl
      rw [h1, h2]
      omega
    | i + 1 =>
      have hi2 : i < (s2 :: rest).length := by
        simp only [List.length_cons] at hi ⊢
        omega
      have := ih s2 i hp2 hb2 hi2
      show (s2 :: rest).getD i 0 + ((s2 - s) :: gaps m (s2 :: rest)).getD (i + 1) 0
          = (s2 :: rest).getD (i + 1) m
      rw [List.getD_cons_succ]
      exact this

/-! ### Instantiation at the pipeline's start list -/

theorem sentinel_not_climbing (l : List ℕ) (hne : l ≠ []) :
    ¬(extendedIndices l).getD l.length 0 = (extendedIndices l).getD (l.length - 1) 0 + 1 := by
  have hm : 0 < l.length := List.length_pos.mpr hne
  rw [extendedIndices_getD_last, extendedIndices_getD_lt l (show l.length - 1 < l.length by omega)]
  omega

theorem mem_consecutiveStartsTail (l : List ℕ) {t : ℕ} :
    t ∈ consecutiveStartsTail (extendedIndices l) ↔
      ∃ j, j < l.length ∧
        (extendedIndices l).getD j 0 + 1 < (extendedIndices l).getD (j + 1) 0 ∧
        j + 1 = t := by
  simp only [consecutiveStartsTail, List.mem_map, List.mem_filter, List.mem_range,
    extendedIndices_length, Nat.add_sub_cancel, decide_eq_true_eq]
  tauto

theorem consecutiveStartsTail_lt (l : List ℕ) (hne : l ≠ []) :
    ∀ t ∈ consecutiveStartsTail (extendedIndices l), t < l.length := by
  intro t ht
  rcases (mem_consecutiveStartsTail l).mp ht with ⟨j, hj, hcond, rfl⟩
  have hm : 0 < l.length := List.length_pos.mpr hne
  by_contra hge
  have hjeq : j = l.length - 1 := by omega
  subst hjeq
  rw [extendedIndices_getD_lt l (show l.length - 1 < l.length by omega)] at hcond
  have he : l.length - 1 + 1 = l.length := by omega
  rw [he, extendedIndices_getD_last] at hcond
  omega

theorem consecutiveStartsTail_char (l : List ℕ) (hs : l.Pairwise (· < ·)) :
    ∀ t, 0 < t → t < l.length →
      (t ∈ consecutiveStartsTail (extendedIndices l) ↔
        ¬(extendedIndices l).getD t 0 = (extendedIndices l).getD (t - 1) 0 + 1) := by
  intro t ht0 htm
  have hmono : (extendedIndices l).getD (t - 1) 0 < (extendedIndices l).getD t 0 := by
    rw [extendedIndices_getD_lt l (show t - 1 < l.length by omega),
      extendedIndices_getD_lt l htm]
    exact getD_lt_of_pairwise hs (by omega) htm
  constructor
  · intro htail
    rcases (mem_consecutiveStartsTail l).mp htail with ⟨j, hj, hcond, hjt⟩
    have hjeq : j = t - 1 := by omega
    subst hjeq
    have he : t - 1 + 1 = t := by omega
    rw [he] at hcond
    omega
  · intro hnp
    apply (mem_consecutiveStartsTail l).mpr
    refine ⟨t - 1, by omega, ?_, by omega⟩
    have he : t - 1 + 1 = t := by omega
    rw [he]
    omega

theorem consecutiveStarts_pairwise (l : List ℕ) :
    (consecutiveStarts (extendedIndices l)).Pairwise (· < ·) := by
  unfold consecutiveStarts
  rw [List.pairwise_cons]
  constructor
  · intro t ht
    unfold consecutiveStartsTail at ht
    rcases List.mem_map.mp ht with ⟨j, _, rfl⟩
    omega
  · exact (List.Pairwise.filter _ (List.pairwise_lt_range _)).map _ (fun a b h => by omega)

theorem consecutiveStarts_lt (l : List ℕ) (hne : l ≠ []) :
    ∀ x ∈ consecutiveStarts (extendedIndices l), x < l.length := by
  intro x hx
  rcases List.mem_cons.mp hx with h | h
  · subst h
    exact List.length_pos.mpr hne
  · exact consecutiveStartsTail_lt l hne x h

/-- The lengths emitted by the pipeline are exactly the gaps between the
successive start positions, closed at the number of satisfying indices. -/
theorem consecutiveStarts_map_eq_gaps (l : List ℕ) (hne : l ≠ [])
    (hs : l.Pairwise (· < ·)) :
    (consecutiveStarts (extendedIndices l)).map (consecLen (extendedIndices l))
      = gaps l.length (consecutiveStarts (extendedIndices l)) := by
  apply map_consecLen_eq_gaps (extendedIndices l) l.length (sentinel_not_climbing l hne)
  · exact consecutiveStarts_pairwise l
  · exact consecutiveStarts_lt l hne
  · intro t ht0 htm
    exact consecutiveStartsTail_char l hs t ht0 htm

theorem pLDDTIndices_pairwise (s : List ℚ) (T : ℚ) (ab : Bool) :
    (pLDDTIndices s T ab).Pairwise (· < ·) :=
  (List.pairwise_lt_range _).filter _

theorem pLDDTIndices_length_eq_count (s : List ℚ) (T : ℚ) (ab : Bool) :
    (pLDDTIndices s T ab).length = countSatisfying s T ab :=
  (List.countP_eq_length_filter _ _).symm

theorem pipeline_eq_none_iff (s : List ℚ) (T : ℚ) (ab : Bool) :
    getConsecutivepLDDTFromThreshold s T ab = none ↔ pLDDTIndices s T ab = [] := by
  unfold getConsecutivepLDDTFromThreshold
  by_cases he : (pLDDTIndices s T ab).isEmpty
  · simp [he, List.isEmpty_iff.mp he]
  · have : pLDDTIndices s T ab ≠ [] := fun h => he (by simp [h])
    simp [he, this]

theorem pipeline_eq_some (s : List ℚ) (T : ℚ) (ab : Bool) (sts lens : List ℕ)
    (h : getConsecutivepLDDTFromThreshold s T ab = some (sts, lens)) :
    pLDDTIndices s T ab ≠ [] ∧
      sts = consecutiveStarts (extendedIndices (pLDDTIndices s T ab)) ∧
      lens = sts.map (consecLen (extendedIndices (pLDDTIndices s T ab))) := by
  unfold getConsecutivepLDDTFromThreshold at h
  by_cases he : (pLDDTIndices s T ab).isEmpty
  · simp [he] at h
  · simp only [he, if_neg, Bool.false_eq_true, not_false_iff, ite_false,
      Option.some.injEq, Prod.mk.injEq] at h
    refine ⟨fun hn => he (by simp [hn]), h.1.symm, ?_⟩
    rw [← h.1]
    exact h.2.symm

theorem gaps_sum_consecutiveStarts (l : List ℕ) (hne : l ≠ []) :
    (gaps l.length (consecutiveStarts (extendedIndices l))).sum = l.length := by
  have h : (gaps l.length (consecutiveStarts (extendedIndices l))).sum = l.length - 0 :=
    gaps_sum l.length (consecutiveStartsTail (extendedIndices l)) 0
      (consecutiveStarts_pairwise l) (consecutiveStarts_lt l hne)
  omega

theorem starts_add_gaps_le (l : List ℕ) (hne : l ≠ []) {i j : ℕ} (hij : i < j)
    (hj : j < (consecutiveStarts (extendedIndices l)).length) :
    (consecutiveStarts (extendedIndices l)).getD i 0 +
        (gaps l.length (consecutiveStarts (extendedIndices l))).getD i 0
      ≤ (consecutiveStarts (extendedIndices l)).getD j 0 := by
  have hpair := consecutiveStarts_pairwise l
  have hbound := consecutiveStarts_lt l hne
  have hi : i < (consecutiveStarts (extendedIndices l)).length := lt_trans hij hj
  have hgap : (consecutiveStarts (extendedIndices l)).getD i 0 +
      (gaps l.length (consecutiveStarts (extendedIndices l))).getD i 0
      = (consecutiveStarts (extendedIndices l)).getD (i + 1) l.length :=
    gaps_getD l.length (consecutiveStartsTail (extendedIndices l)) 0 i hpair hbound hi
  rw [hgap]
  have hi1 : i + 1 < (consecutiveStarts (extendedIndices l)).length := by omega
  rw [List.getD_eq_getElem _ _ hi1, ← List.getD_eq_getElem _ 0 hi1]
  exact getD_le_of_pairwise hpair (by omega) hj

/-! ### Claim theorems -/

/-- Shared helper: the stretch lengths found by the pipeline always sum to
the number of satisfying indices. -/
theorem runLengths_sum_eq_count (s : List ℚ) (T : ℚ) (ab : Bool) :
    (runLengths (getConsecutivepLDDTFromThreshold s T ab)).sum = countSatisfying s T ab := by
  rcases hres : getConsecutivepLDDTFromThreshold s T ab with _ | ⟨sts, lens⟩
  · have hnil : pLDDTIndices s T ab = [] := (pipeline_eq_none_iff s T ab).mp hres
    have hcount : countSatisfying s T ab = 0 := by
      rw [← pLDDTIndices_length_eq_count, hnil]
      rfl
    simp [runLengths, hcount]
  · rcases pipeline_eq_some s T ab sts lens hres with ⟨hne, hsts, hlens⟩
    have hs := pLDDTIndices_pairwise s T ab
    show lens.sum = countSatisfying s T ab
    rw [← pLDDTIndices_length_eq_count, hlens, hsts,
      consecutiveStarts_map_eq_gaps _ hne hs, gaps_sum_consecutiveStarts _ hne]

/-- Shared helper: every stretch length found by the pipeline is at least 1. -/
theorem runLengths_pos (s : List ℚ) (T : ℚ) (ab : Bool) :
    ∀ L ∈ runLengths (getConsecutivepLDDTFromThreshold s T ab), 1 ≤ L := by
  rcases hres : getConsecutivepLDDTFromThreshold s T ab with _ | ⟨sts, lens⟩
  · simp [runLengths]
  · rcases pipeline_eq_some s T ab sts lens hres with ⟨_, _, hlens⟩
    show ∀ L ∈ lens, 1 ≤ L
    rw [hlens]
    intro L hL
    rcases List.mem_map.mp hL with ⟨p, _, rfl⟩
    exact consecLen_pos _ _

/-- Shared helper: evaluation of the disordered-fraction function when the
pipeline found stretches. -/
theorem fraction_eval_some (s : List ℚ) (T : ℚ) (minLen : ℕ) (sts lens : List ℕ)
    (h : getConsecutiveDisorderedFrompLDDTs s T = some (sts, lens)) :
    getDisorderedFractionFrompLDDTs s T minLen
      = ((((lens.filter (fun L => decide (minLen ≤ L))).sum : ℕ) : ℚ) / (s.length : ℚ),
         some (lens.filter (fun L => decide (minLen ≤ L)))) := by
  unfold getDisorderedFractionFrompLDDTs
  rw [h]

/-- Shared helper: evaluation of the disordered-fraction function when the
pipeline found nothing. -/
theorem fraction_eval_none (s : List ℚ) (T : ℚ) (minLen : ℕ)
    (h : getConsecutiveDisorderedFrompLDDTs s T = none) :
    getDisorderedFractionFrompLDDTs s T minLen = (0, none) := by
  unfold getDisorderedFractionFrompLDDTs
  rw [h]

/-- Shared helper: a filtered list of naturals sums to at most the original. -/
theorem filter_sum_le (p : ℕ → Bool) : ∀ l : List ℕ, (l.filter p).sum ≤ l.sum := by
  intro l
  induction l with
  | nil => simp
  | cons a t ih =>
    by_cases hpa : p a <;> simp [List.filter_cons, hpa] <;> omega

/-- Shared helper: at most `len(S)` indices satisfy the predicate. -/
theorem countSatisfying_le_length (s : List ℚ) (T : ℚ) (ab : Bool) :
    countSatisfying s T ab ≤ s.length := by
  unfold countSatisfying
  calc (List.range s.length).countP _ ≤ (List.range s.length).length :=
        List.countP_le_length _
    _ = s.length := List.length_range _

/-- Shared helper: the qualifying-run residue total is at most `len(S)`. -/
theorem qualifyingRunSum_le (s : List ℚ) (T : ℚ) (ab : Bool) (minLen : ℕ) :
    qualifyingRunSum s T ab minLen ≤ s.length := by
  unfold qualifyingRunSum
  calc ((runLengths (getConsecutivepLDDTFromThreshold s T ab)).filter
          (fun L => decide (minLen ≤ L))).sum
      ≤ (runLengths (getConsecutivepLDDTFromThreshold s T ab)).sum :=
        filter_sum_le _ _
    _ = countSatisfying s T ab := runLengths_sum_eq_count s T ab
    _ ≤ s.length := countSatisfying_le_length s T ab

/-- C1: for every score sequence, threshold and direction, the sum of the
lengths of all stretches found by the run-detection step (before any
min-length filtering) equals the number of indices whose score satisfies
the threshold predicate (`≤ T` for the disorder direction, `≥ T` for the
order direction). -/
theorem sum_runLengths_eq_countSatisfying (s : List ℚ) (T : ℚ) (ab : Bool) :
    (runLengths (getConsecutivepLDDTFromThreshold s T ab)).sum = countSatisfying s T ab :=
  runLengths_sum_eq_count s T ab

/-- C2: whenever run detection returns stretches, every stretch has length
at least 1, the recorded start positions are strictly increasing, the
position intervals `[start, start + length)` are pairwise non-overlapping,
and the corresponding residue blocks (obtained through the satisfying-index
list) are pairwise disjoint in ascending order: the last residue of an
earlier stretch lies strictly before the first residue of a later one. -/
theorem runs_wellformed (s : List ℚ) (T : ℚ) (ab : Bool) (sts lens : List ℕ)
    (h : getConsecutivepLDDTFromThreshold s T ab = some (sts, lens)) :
    (∀ L ∈ lens, 1 ≤ L) ∧
    sts.Pairwise (· < ·) ∧
    (∀ i j, i < j → j < sts.length → sts.getD i 0 + lens.getD i 0 ≤ sts.getD j 0) ∧
    (∀ i j, i < j → j < sts.length →
      (pLDDTIndices s T ab).getD (sts.getD i 0 + lens.getD i 0 - 1) 0
        < (pLDDTIndices s T ab).getD (sts.getD j 0) 0) := by
  rcases pipeline_eq_some s T ab sts lens h with ⟨hne, hsts, hlens⟩
  have hsorted := pLDDTIndices_pairwise s T ab
  set l := pLDDTIndices s T ab with hldef
  have hpair : sts.Pairwise (· < ·) := by
    rw [hsts]
    exact consecutiveStarts_pairwise l
  have hbound : ∀ x ∈ sts, x < l.length := by
    rw [hsts]
    exact consecutiveStarts_lt l hne
  have hlen_eq : lens.length = sts.length := by
    rw [hlens]
    exact List.length_map _ _
  have hpos : ∀ L ∈ lens, 1 ≤ L := by
    rw [hlens]
    intro L hL
    rcases List.mem_map.mp hL with ⟨p, _, rfl⟩
    exact consecLen_pos _ _
  have hgapslens : lens = gaps l.length sts := by
    rw [hlens, hsts]
    exact consecutiveStarts_map_eq_gaps l hne hsorted
  have hc : ∀ i j, i < j → j < sts.length →
      sts.getD i 0 + lens.getD i 0 ≤ sts.getD j 0 := by
    intro i j hij hj
    rw [hgapslens, hsts]
    exact starts_add_gaps_le l hne hij (by rw [← hsts]; exact hj)
  refine ⟨hpos, hpair, hc, ?_⟩
  intro i j hij hj
  have hle := hc i j hij hj
  have hjmem : sts.getD j 0 ∈ sts := by
    rw [List.getD_eq_getElem _ _ hj]
    exact List.getElem_mem hj
  have hjlt : sts.getD j 0 < l.length := hbound _ hjmem
  have hilen : i < lens.length := by omega
  have hipos : 1 ≤ lens.getD i 0 := by
    apply hpos
    rw [List.getD_eq_getElem _ _ hilen]
    exact List.getElem_mem hilen
  apply getD_lt_of_pairwise hsorted _ hjlt
  omega

/-- Witness for C2 at the concrete input `[10, 90, 10]`, threshold `50`,
disorder direction, whose stretches are `([0, 1], [1, 1])`. -/
theorem runs_wellformed_witness :
    (∀ L ∈ ([1, 1] : List ℕ), 1 ≤ L) ∧
    ([0, 1] : List ℕ).Pairwise (· < ·) ∧
    (∀ i j, i < j → j < ([0, 1] : List ℕ).length →
      ([0, 1] : List ℕ).getD i 0 + ([1, 1] : List ℕ).getD i 0 ≤ ([0, 1] : List ℕ).getD j 0) ∧
    (∀ i j, i < j → j < ([0, 1] : List ℕ).length →
      (pLDDTIndices [10, 90, 10] 50 false).getD
          (([0, 1] : List ℕ).getD i 0 + ([1, 1] : List ℕ).getD i 0 - 1) 0
        < (pLDDTIndices [10, 90, 10] 50 false).getD (([0, 1] : List ℕ).getD j 0) 0) :=
  runs_wellformed [10, 90, 10] 50 false [0, 1] [1, 1] (by decide)

/-- C3 (code bug in the source): at `pLDDTs = [90, 10]` with threshold `50`
in the disorder direction, the single maximal satisfying block begins at
score-sequence position `1` (the satisfying-index list is `[1]`), but the
function returns `0` as the stretch's start: the returned starts are
positions into the satisfying-index list, not indices into the score
sequence as the docstring describes. -/
theorem stretchStarts_not_score_positions :
    getConsecutivepLDDTFromThreshold [90, 10] 50 false = some ([0], [1]) ∧
    pLDDTIndices [90, 10] 50 false = [1] ∧
    ([0] : List ℕ) ≠ [1] :=
  ⟨by decide, by decide, by decide⟩

/-- C4 counterexample: on the empty score sequence the analysis returns
`(0, none)` — Python's `(0, None)` — whose second component is not an empty
run-length list. -/
theorem emptyScores_counterexample :
    getDisorderedFractionFrompLDDTs [] 50 2 = (0, none) ∧
    (getDisorderedFractionFrompLDDTs [] 50 2).2 ≠ some [] :=
  ⟨by decide, by decide⟩

/-- C4 (amended): for every threshold and minimum length, the analysis of
the empty score sequence returns fraction `0` together with `None` (no
run-length collection) and, being a total function, raises no error. -/
theorem emptyScores_fraction_zero (T : ℚ) (minLen : ℕ) :
    getDisorderedFractionFrompLDDTs [] T minLen = (0, none) := rfl

/-- C5: maximal satisfying blocks separated by exactly one non-satisfying
residue are kept separate: for `S = [10, 90, 10, 90, 10]` with disorder
threshold `50`, run detection finds three stretches of length 1; with
min-length 1 the analysis reports fraction `3/5` and lengths `[1, 1, 1]`,
and with min-length 2 it reports fraction `0` with an empty length list. -/
theorem isolated_runs_scenario :
    getConsecutiveDisorderedFrompLDDTs [10, 90, 10, 90, 10] 50
        = some ([0, 1, 2], [1, 1, 1]) ∧
    getDisorderedFractionFrompLDDTs [10, 90, 10, 90, 10] 50 1
        = (3 / 5, some [1, 1, 1]) ∧
    getDisorderedFractionFrompLDDTs [10, 90, 10, 90, 10] 50 2 = (0, some []) := by
  have hres : getConsecutiveDisorderedFrompLDDTs [10, 90, 10, 90, 10] 50
      = some ([0, 1, 2], [1, 1, 1]) := by decide
  have hf1 : ([1, 1, 1] : List ℕ).filter (fun L => decide ((1 : ℕ) ≤ L)) = [1, 1, 1] := by
    decide
  have hf2 : ([1, 1, 1] : List ℕ).filter (fun L => decide ((2 : ℕ) ≤ L)) = [] := by
    decide
  refine ⟨hres, ?_, ?_⟩
  · rw [fraction_eval_some [10, 90, 10, 90, 10] 50 1 [0, 1, 2] [1, 1, 1] hres, hf1]
    norm_num
  · rw [fraction_eval_some [10, 90, 10, 90, 10] 50 2 [0, 1, 2] [1, 1, 1] hres, hf2]
    norm_num

/-- C6: on a non-empty score sequence, analysis with min-length 1 excludes
no stretch: for either direction the length-1 filter keeps every stretch
(their total stays the count of satisfying indices), and the reported
fraction is the number of satisfying indices divided by the sequence
length. -/
theorem minLength_one_excludes_no_runs (s : List ℚ) (T : ℚ) (ab : Bool)
    (_h : s ≠ []) :
    qualifyingRunSum s T ab 1 = countSatisfying s T ab ∧
    (getDisorderedFractionFrompLDDTs s T 1).1
      = (countSatisfying s T false : ℚ) / (s.length : ℚ) := by
  have hq : ∀ ab2 : Bool, qualifyingRunSum s T ab2 1 = countSatisfying s T ab2 := by
    intro ab2
    unfold qualifyingRunSum
    have hfil : (runLengths (getConsecutivepLDDTFromThreshold s T ab2)).filter
        (fun L => decide (1 ≤ L))
        = runLengths (getConsecutivepLDDTFromThreshold s T ab2) :=
      List.filter_eq_self.mpr (fun a ha => decide_eq_true (runLengths_pos s T ab2 a ha))
    rw [hfil]
    exact runLengths_sum_eq_count s T ab2
  refine ⟨hq ab, ?_⟩
  rcases hres : getConsecutiveDisorderedFrompLDDTs s T with _ | ⟨sts, lens⟩
  · rw [fraction_eval_none s T 1 hres]
    have hres2 : getConsecutivepLDDTFromThreshold s T false = none := hres
    have hc : countSatisfying s T false = 0 := by
      rw [← pLDDTIndices_length_eq_count, (pipeline_eq_none_iff s T false).mp hres2]
      rfl
    rw [hc]
    simp
  · rw [fraction_eval_some s T 1 sts lens hres]
    have hres2 : getConsecutivepLDDTFromThreshold s T false = some (sts, lens) := hres
    have hpos := runLengths_pos s T false
    rw [hres2] at hpos
    simp only [runLengths] at hpos
    have hfil : lens.filter (fun L => decide ((1 : ℕ) ≤ L)) = lens :=
      List.filter_eq_self.mpr (fun a ha => decide_eq_true (hpos a ha))
    have hsum := runLengths_sum_eq_count s T false
    rw [hres2] at hsum
    simp only [runLengths] at hsum
    show (((lens.filter (fun L => decide ((1 : ℕ) ≤ L))).sum : ℕ) : ℚ) / (s.length : ℚ)
        = (countSatisfying s T false : ℚ) / (s.length : ℚ)
    rw [hfil, hsum]

/-- Witness for C6 at `S = [10, 90, 10]`, threshold `50`, order direction. -/
theorem minLength_one_excludes_no_runs_witness :
    qualifyingRunSum [10, 90, 10] 50 true 1 = countSatisfying [10, 90, 10] 50 true ∧
    (getDisorderedFractionFrompLDDTs [10, 90, 10] 50 1).1
      = (countSatisfying [10, 90, 10] 50 false : ℚ) / (([10, 90, 10] : List ℚ).length : ℚ) :=
  minLength_one_excludes_no_runs [10, 90, 10] 50 true (by decide)

/-- C7: on a non-empty score sequence the reported fraction equals the
total residue count of the qualifying (length-filtered) stretches divided
by the total residue count, and such a quotient lies in `[0, 1]` for every
direction, threshold and minimum length. -/
theorem fraction_unit_interval (s : List ℚ) (T : ℚ) (ab : Bool) (minLen : ℕ)
    (h : s ≠ []) :
    (getDisorderedFractionFrompLDDTs s T minLen).1
        = (qualifyingRunSum s T false minLen : ℚ) / (s.length : ℚ) ∧
    0 ≤ (getDisorderedFractionFrompLDDTs s T minLen).1 ∧
    (getDisorderedFractionFrompLDDTs s T minLen).1 ≤ 1 ∧
    0 ≤ (qualifyingRunSum s T ab minLen : ℚ) / (s.length : ℚ) ∧
    (qualifyingRunSum s T ab minLen : ℚ) / (s.length : ℚ) ≤ 1 := by
  have hlen : 0 < (s.length : ℚ) := by
    have hp : 0 < s.length := List.length_pos.mpr h
    exact_mod_cast hp
  have hfrac : ∀ ab2 : Bool, 0 ≤ (qualifyingRunSum s T ab2 minLen : ℚ) / (s.length : ℚ) ∧
      (qualifyingRunSum s T ab2 minLen : ℚ) / (s.length : ℚ) ≤ 1 := by
    intro ab2
    constructor
    · exact div_nonneg (Nat.cast_nonneg _) (le_of_lt hlen)
    · rw [div_le_one hlen]
      exact_mod_cast qualifyingRunSum_le s T ab2 minLen
  have heq : (getDisorderedFractionFrompLDDTs s T minLen).1
      = (qualifyingRunSum s T false minLen : ℚ) / (s.length : ℚ) := by
    rcases hres : getConsecutiveDisorderedFrompLDDTs s T with _ | ⟨sts, lens⟩
    · rw [fraction_eval_none s T minLen hres]
      have hres2 : getConsecutivepLDDTFromThreshold s T false = none := hres
      have hq : qualifyingRunSum s T false minLen = 0 := by
        unfold qualifyingRunSum
        rw [hres2]
        rfl
      rw [hq]
      simp
    · rw [fraction_eval_some s T minLen sts lens hres]
      have hres2 : getConsecutivepLDDTFromThreshold s T false = some (sts, lens) := hres
      unfold qualifyingRunSum
      rw [hres2]
      rfl
  exact ⟨heq, by rw [heq]; exact (hfrac false).1, by rw [heq]; exact (hfrac false).2,
    (hfrac ab).1, (hfrac ab).2⟩

/-- Witness for C7 at `S = [10, 90, 10]`, threshold `50`, order direction,
min-length 2. -/
theorem fraction_unit_interval_witness :
    (getDisorderedFractionFrompLDDTs [10, 90, 10] 50 2).1
        = (qualifyingRunSum [10, 90, 10] 50 false 2 : ℚ) / (([10, 90, 10] : List ℚ).length : ℚ) ∧
    0 ≤ (getDisorderedFractionFrompLDDTs [10, 90, 10] 50 2).1 ∧
    (getDisorderedFractionFrompLDDTs [10, 90, 10] 50 2).1 ≤ 1 ∧
    0 ≤ (qualifyingRunSum [10, 90, 10] 50 true 2 : ℚ) / (([10, 90, 10] : List ℚ).length : ℚ) ∧
    (qualifyingRunSum [10, 90, 10] 50 true 2 : ℚ) / (([10, 90, 10] : List ℚ).length : ℚ) ≤ 1 :=
  fraction_unit_interval [10, 90, 10] 50 true 2 (by decide)

/-- C8: the disordered-fraction function returns `(0, None)` exactly when
no index satisfies the disorder threshold, and it returns fraction `0` with
an empty (non-`None`) length list when stretches exist but none meets the
minimum-length cutoff. -/
theorem zero_none_iff_no_satisfying_index (s : List ℚ) (T : ℚ) (minLen : ℕ) :
    (getDisorderedFractionFrompLDDTs s T minLen = (0, none) ↔
      countSatisfying s T false = 0) ∧
    (∀ sts lens, getConsecutiveDisorderedFrompLDDTs s T = some (sts, lens) →
      (∀ L ∈ lens, L < minLen) →
      getDisorderedFractionFrompLDDTs s T minLen = (0, some [])) := by
  constructor
  · constructor
    · intro heq
      rcases hres : getConsecutiveDisorderedFrompLDDTs s T with _ | ⟨sts, lens⟩
      · have hres2 : getConsecutivepLDDTFromThreshold s T false = none := hres
        rw [← pLDDTIndices_length_eq_count, (pipeline_eq_none_iff s T false).mp hres2]
        rfl
      · rw [fraction_eval_some s T minLen sts lens hres] at heq
        have := congrArg Prod.snd heq
        simp at this
    · intro hc
      have hnil : pLDDTIndices s T false = [] := by
        rw [← List.length_eq_zero, pLDDTIndices_length_eq_count]
        exact hc
      exact fraction_eval_none s T minLen ((pipeline_eq_none_iff s T false).mpr hnil)
  · intro sts lens hres hall
    rw [fraction_eval_some s T minLen sts lens hres]
    have hfil : lens.filter (fun L => decide (minLen ≤ L)) = [] := by
      apply List.filter_eq_nil_iff.mpr
      intro a ha
      simp only [decide_eq_true_eq]
      have := hall a ha
      omega
    rw [hfil]
    simp

/-- Witness for C8: at `S = [10, 90, 10]`, threshold `50`, min-length `5`,
stretches `([0, 1], [1, 1])` exist but are all shorter than the cutoff, and
the analysis returns `(0, some [])`. -/
theorem zero_none_iff_no_satisfying_index_witness :
    getDisorderedFractionFrompLDDTs [10, 90, 10] 50 5 = (0, some []) :=
  (zero_none_iff_no_satisfying_index [10, 90, 10] 50 5).2 [0, 1] [1, 1]
    (by decide) (by decide)

/-- C9: with both 1-based bounds given, the sub-sequence extractor checks
`startRes ≤ endRes`, then `endRes - startRes ≤ len`, then `endRes ≤ len`,
returning the zero-based slice `[startRes - 1, endRes)` when all hold and
the corresponding range error otherwise. -/
theorem subsequence_validates_and_slices (pLDDTs : List ℚ) (s e : ℕ)
    (_h1 : 1 ≤ s) :
    (s ≤ e → e - s ≤ pLDDTs.length → e ≤ pLDDTs.length →
      getpLDDTsSubSequenceFromAlphaFoldPDBModel pLDDTs (some s) (some e)
        = Except.ok ((pLDDTs.drop (s - 1)).take (e - (s - 1)))) ∧
    (¬s ≤ e →
      getpLDDTsSubSequenceFromAlphaFoldPDBModel pLDDTs (some s) (some e)
        = Except.error SubSeqError.startAfterEnd) ∧
    (s ≤ e → ¬e - s ≤ pLDDTs.length →
      getpLDDTsSubSequenceFromAlphaFoldPDBModel pLDDTs (some s) (some e)
        = Except.error SubSeqError.rangeExceedsLength) ∧
    (s ≤ e → e - s ≤ pLDDTs.length → ¬e ≤ pLDDTs.length →
      getpLDDTsSubSequenceFromAlphaFoldPDBModel pLDDTs (some s) (some e)
        = Except.error SubSeqError.endBeyondSequence) := by
  simp only [getpLDDTsSubSequenceFromAlphaFoldPDBModel]
  refine ⟨?_, ?_, ?_, ?_⟩
  · intro ha hb hc
    rw [if_pos ha, if_pos hb, if_pos hc]
  · intro ha
    rw [if_neg ha]
  · intro ha hb
    rw [if_pos ha, if_neg hb]
  · intro ha hb hc
    rw [if_pos ha, if_pos hb, if_neg hc]

/-- Witness for C9 at `pLDDTs = [10, 20, 30]`, `startRes = 2`,
`endRes = 3`. -/
theorem subsequence_validates_and_slices_witness :
    ((2 : ℕ) ≤ 3 → 3 - 2 ≤ ([10, 20, 30] : List ℚ).length →
        3 ≤ ([10, 20, 30] : List ℚ).length →
      getpLDDTsSubSequenceFromAlphaFoldPDBModel [10, 20, 30] (some 2) (some 3)
        = Except.ok ((([10, 20, 30] : List ℚ).drop (2 - 1)).take (3 - (2 - 1)))) ∧
    (¬(2 : ℕ) ≤ 3 →
      getpLDDTsSubSequenceFromAlphaFoldPDBModel [10, 20, 30] (some 2) (some 3)
        = Except.error SubSeqError.startAfterEnd) ∧
    ((2 : ℕ) ≤ 3 → ¬3 - 2 ≤ ([10, 20, 30] : List ℚ).length →
      getpLDDTsSubSequenceFromAlphaFoldPDBModel [10, 20, 30] (some 2) (some 3)
        = Except.error SubSeqError.rangeExceedsLength) ∧
    ((2 : ℕ) ≤ 3 → 3 - 2 ≤ ([10, 20, 30] : List ℚ).length →
        ¬3 ≤ ([10, 20, 30] : List ℚ).length →
      getpLDDTsSubSequenceFromAlphaFoldPDBModel [10, 20, 30] (some 2) (some 3)
        = Except.error SubSeqError.endBeyondSequence) :=
  subsequence_validates_and_slices [10, 20, 30] 2 3 (by decide)

/-- C10: giving exactly one of `startRes`/`endRes` always fails (the
modelled assertion error) and never yields a score sequence; the
neither-bound form succeeds with the whole sequence. -/
theorem subsequence_rejects_single_bound (pLDDTs : List ℚ) (s e : ℕ) :
    getpLDDTsSubSequenceFromAlphaFoldPDBModel pLDDTs (some s) none
        = Except.error SubSeqError.mixedBounds ∧
    getpLDDTsSubSequenceFromAlphaFoldPDBModel pLDDTs none (some e)
        = Except.error SubSeqError.mixedBounds ∧
    (∀ r, getpLDDTsSubSequenceFromAlphaFoldPDBModel pLDDTs (some s) none
        ≠ Except.ok r) ∧
    (∀ r, getpLDDTsSubSequenceFromAlphaFoldPDBModel pLDDTs none (some e)
        ≠ Except.ok r) ∧
    getpLDDTsSubSequenceFromAlphaFoldPDBModel pLDDTs none none = Except.ok pLDDTs :=
  ⟨rfl, rfl, fun _r h => Except.noConfusion h, fun _r h => Except.noConfusion h, rfl⟩

example : pLDDTIndices [10, 90, 10, 90, 10] 50 false = [0, 2, 4] := by decide
example : getConsecutivepLDDTFromThreshold [10, 90, 10, 90, 10] 50 false
    = some ([0, 1, 2], [1, 1, 1]) := by decide
example : getConsecutivepLDDTFromThreshold [90, 40, 35, 92, 20, 15, 10, 88] 50 false
    = some ([0, 2], [2, 3]) := by decide

end DisorderFromAlphaFold
